import Mathlib

/-!
Verification development for the canonicalization pass of the Jabuti CE
transformation engine (file src/parsers/canonical.parser.ts).  The concrete
syntax tree handed over by the ANTLR front end is embedded as a first-order
tree of nodes discriminated by kind; the `CanonicalParser.parse` method and
its helper `parseMessageContent` are embedded as executable functions over
that tree.  Places where the TypeScript source performs a member access that
is not guarded by optional chaining (and hence would throw on a malformed
tree) are embedded as `Option` failures.
-/

namespace JabutiCanonical

/-- Node kinds of the grammar contexts the canonicalizer dispatches on
(`instanceof` checks in the source), plus `idTok` for ID terminal tokens and
`token` for every other terminal or unrecognized node. -/
inductive NodeKind where
  | variablesCtx
  | variableStatementCtx
  | datesCtx
  | beginDateCtx
  | dueDateCtx
  | datetimeCtx
  | partiesCtx
  | applicationCtx
  | processCtx
  | clausesCtx
  | clauseCtx
  | rolePlayerCtx
  | onBreachCtx
  | termsCtx
  | termOrWhenCtx
  | termCtx
  | timeoutCtx
  | messageContentCtx
  | idTok
  | token
deriving DecidableEq, Repr

/-- A concrete syntax tree node: kind, raw text (`.text` in ANTLR), ordered
children.  A node whose child list is empty models an ANTLR node whose
`children` field is `undefined`. -/
inductive Node where
  | mk (kind : NodeKind) (text : String) (children : List Node)

def Node.kind : Node → NodeKind
  | .mk k _ _ => k

def Node.text : Node → String
  | .mk _ t _ => t

def Node.children : Node → List Node
  | .mk _ _ c => c

/-- The `{pascal, camel, snake}` triple synthesized for every generated
symbol. -/
structure IdentifierName where
  pascal : String
  camel : String
  snake : String
deriving DecidableEq, Repr

/-- A synthesized variable: identifier triple plus inferred type
(`"boolean"`, `"TEXT"` or `"NUMBER"`). -/
structure Variable where
  name : IdentifierName
  type : String
deriving DecidableEq, Repr

/-- One entry of the heterogeneous array returned by `parseMessageContent`:
the TypeScript code pushes raw strings (numeric literals and the comparator
token), `undefined` (the comparator read off a childless node), and variable
objects.  The caller discriminates them by `typeof`. -/
inductive Param where
  | str (s : String)
  | jsUndefined
  | var (v : Variable)
deriving DecidableEq, Repr

/-- The `typeof parameters[i] !== 'number' && typeof parameters[i] !==
'string' && parameters[i]` guard of the source: true exactly on variable
objects (strings fail the typeof test, `undefined` is falsy). -/
def Param.isVariableObject : Param → Bool
  | .var _ => true
  | _ => false

def Param.getVar : Param → Option Variable
  | .var v => some v
  | _ => none

def Param.isStr : Param → Bool
  | .str _ => true
  | _ => false

/-- A term record pushed onto `clause.terms`: either a timeout
(`{name, type: 'timeout', value}`) or a message-content record in its
one-parameter form (`{name, type, variables: parameters}`) or its
three-parameter form (`{name, type, comparator, variables: [p0, p2]}`). -/
inductive Term where
  | timeout (name : IdentifierName) (value : String)
  | mc1 (name : IdentifierName) (vars : List Param)
  | mc3 (name : IdentifierName) (comparator : Param) (vars : List Param)
deriving DecidableEq, Repr

def Term.isTimeout : Term → Bool
  | .timeout _ _ => true
  | _ => false

/-- A three-parameter (binary-comparison) message-content term. -/
def Term.isMc3 : Term → Bool
  | .mc3 _ _ _ => true
  | _ => false

structure Messages where
  error : String
  success : String
deriving DecidableEq, Repr

/-- A lowered clause.  `rolePlayer` and `operation` are `Option String`
because the source expression `children?.[2].text` evaluates to `undefined`
when the role-player node has no children. -/
structure Clause where
  name : IdentifierName
  type : String
  vars : List Variable
  rolePlayer : Option String
  operation : Option String
  terms : List Term
  messages : Messages
deriving DecidableEq, Repr

structure Contract where
  name : String
  beginDate : String
  dueDate : String
  application : String
  process : String
  vars : List Variable
  clauses : List Clause
deriving DecidableEq, Repr

/-! ## Generic small helpers -/

/-- First child of a given kind, as the generated ANTLR accessors
(`ID()`, `rolePlayer()`) return it. -/
def findKind (k : NodeKind) : List Node → Option Node
  | [] => none
  | c :: cs => if c.kind = k then some c else findKind k cs

/-- Short-circuiting fold: a `none` from the step function (a thrown
exception in the source) aborts the whole traversal. -/
def optFold {α β : Type} (f : α → β → Option α) : α → List β → Option α
  | a, [] => some a
  | a, b :: bs =>
    match f a b with
    | none => none
    | some a2 => optFold f a2 bs

def sumMap {β : Type} (g : β → Nat) : List β → Nat
  | [] => 0
  | b :: bs => g b + sumMap g bs

/-! ## JavaScript string-to-number coercion

The source guards `!isNaN(Number(text))` appear in the timeout branch and in
`parseMessageContent`.  `jsStringToNumberDefined s` is true exactly when the
ECMAScript `Number(s)` coercion of the string `s` yields a value other than
NaN: the string is trimmed, the empty remainder coerces to `0`, and otherwise
the remainder must be a decimal literal with optional sign/fraction/exponent,
a signed `Infinity`, or an unsigned hex/octal/binary literal. -/

def jsWhitespace (c : Char) : Bool :=
  c = ' ' || c = '\t' || c = '\n' || c = '\r' || c = '\x0b' || c = '\x0c' ||
  c = '\u00A0' || c = '\u2028' || c = '\u2029' || c = '\uFEFF'

def isHexDigitChar (c : Char) : Bool :=
  c.isDigit || ('a' ≤ c && c ≤ 'f') || ('A' ≤ c && c ≤ 'F')

def isOctalDigitChar (c : Char) : Bool :=
  '0' ≤ c && c ≤ '7'

def isBinaryDigitChar (c : Char) : Bool :=
  c = '0' || c = '1'

/-- Split a character list at the first exponent marker. -/
def splitAtExp : List Char → List Char × Option (List Char)
  | [] => ([], none)
  | c :: rest =>
    if c = 'e' || c = 'E' then ([], some rest)
    else
      let p := splitAtExp rest
      (c :: p.1, p.2)

/-- Mantissa: at most one dot, everything else a digit, at least one digit. -/
def validMantissa (l : List Char) : Bool :=
  (l.filter (fun c => c = '.')).length ≤ 1 &&
  l.all (fun c => c.isDigit || c = '.') &&
  l.any Char.isDigit

def validExponent (l : List Char) : Bool :=
  match l with
  | [] => false
  | c :: rest =>
    if c = '+' || c = '-' then !rest.isEmpty && rest.all Char.isDigit
    else !(c :: rest).isEmpty && (c :: rest).all Char.isDigit

def validDecimalBody (l : List Char) : Bool :=
  if l = "Infinity".toList then true
  else
    let p := splitAtExp l
    validMantissa p.1 &&
      (match p.2 with
       | none => true
       | some ex => validExponent ex)

def validSignedDecimal (l : List Char) : Bool :=
  match l with
  | [] => false
  | c :: rest =>
    if c = '+' || c = '-' then validDecimalBody rest
    else validDecimalBody (c :: rest)

/-- `Number(s)` is not NaN. -/
def jsStringToNumberDefined (s : String) : Bool :=
  let l := ((s.toList.dropWhile jsWhitespace).reverse.dropWhile jsWhitespace).reverse
  match l with
  | [] => true
  | '0' :: c :: rest =>
    if c = 'x' || c = 'X' then !rest.isEmpty && rest.all isHexDigitChar
    else if c = 'o' || c = 'O' then !rest.isEmpty && rest.all isOctalDigitChar
    else if c = 'b' || c = 'B' then !rest.isEmpty && rest.all isBinaryDigitChar
    else validSignedDecimal ('0' :: c :: rest)
  | l => validSignedDecimal l

/-- Modelled from the spec: the `capitalizeFirst` helper lives in
`src/utils`, which is not included in the sources; per the naming-service
description it upper-cases the first character of its argument and preserves
the rest, the empty string mapping to itself. -/
def capitalizeFirst (s : String) : String :=
  match s.toList with
  | [] => ""
  | c :: cs => String.mk (c.toUpper :: cs)

/-- `toLocaleLowerCase()` of the source, on the ASCII range: every character
lower-cased.  (Defined over the character list so that it reduces during
kernel evaluation.) -/
def toLowerStr (s : String) : String :=
  String.mk (s.toList.map Char.toLower)

/-- `text.startsWith('"')` of the source: the raw text begins with a double
quote. -/
def startsWithQuote (s : String) : Bool :=
  match s.toList with
  | [] => false
  | c :: _ => c = '"'

/-! ## Message-condition analyzer (`parseMessageContent`) -/

/-- `['==', '!='].includes(comparator)` drives the inferred operand type;
an `undefined` comparator is not in the list and yields `NUMBER`. -/
def inferType (comp : Option String) : String :=
  match comp with
  | some s => if s = "==" ∨ s = "!=" then "TEXT" else "NUMBER"
  | none => "NUMBER"

/-- The anonymous variable pushed for a quoted-literal (or missing) operand:
named from the term index and the positional slot (1 = left, 2 = right). -/
def anonOperandVar (index : Nat) (slot : Nat) (ty : String) : Param :=
  .var { name := { pascal := "MessageContent" ++ toString index ++ toString slot
                 , camel := "messageContent" ++ toString index ++ toString slot
                 , snake := "messageContent_" ++ toString index ++ "_" ++ toString slot }
       , type := ty }

/-- One operand of a binary comparison, mirroring the three-way branch of the
source: numeric raw text is pushed through as the raw string; unquoted text
becomes a variable named by its own raw text; quoted text (and a missing
operand, for which `Number(undefined)` is NaN and the truthiness guard
fails) becomes an anonymous positional variable. -/
def operandParam (v : Option Node) (index : Nat) (slot : Nat) (ty : String) : Param :=
  match v with
  | some n =>
    if jsStringToNumberDefined n.text then .str n.text
    else if !startsWithQuote n.text then
      .var { name := { pascal := capitalizeFirst n.text, camel := n.text, snake := n.text }
           , type := ty }
    else anonOperandVar index slot ty
  | none => anonOperandVar index slot ty

/-- The comparator is pushed as-is: the raw token text, or `undefined` when
the node has no children at all. -/
def comparatorParam : Option String → Param
  | some s => .str s
  | none => .jsUndefined

/-- `parseMessageContent(term, index)`.  With exactly four children the node
is a presence check and a single boolean variable is returned.  Otherwise the
comparator is read at child index 3 — a read that throws (`none`) when the
node has children but no fourth child — and the three-entry
operand/comparator/operand array is built. -/
def parseMessageContent (term : Node) (index : Nat) : Option (List Param) :=
  if term.children.length = 4 then
    some [.var { name := { pascal := "MessageContent" ++ toString index
                         , camel := "messageContent" ++ toString index
                         , snake := "messageContent_" ++ toString index }
               , type := "boolean" }]
  else
    match term.children with
    | [] =>
      some [operandParam none index 1 (inferType none),
            comparatorParam none,
            operandParam none index 2 (inferType none)]
    | cs =>
      match cs.get? 3 with
      | none => none
      | some c3 =>
        let comp : Option String := some c3.text
        let ty := inferType comp
        some [operandParam (cs.get? 2) index 1 ty,
              comparatorParam comp,
              operandParam (cs.get? 4) index 2 ty]

/-! ## Per-clause lowering state -/

structure ClauseState where
  error : String
  terms : List Term
  vars : List (String × Variable)
  termIndex : Nat
deriving DecidableEq, Repr

def initialClauseState : ClauseState :=
  { error := "", terms := [], vars := [], termIndex := 0 }

def hasKey (k : String) : List (String × Variable) → Bool
  | [] => false
  | p :: ps => if p.1 = k then true else hasKey k ps

def replaceKey (k : String) (v : Variable) :
    List (String × Variable) → List (String × Variable)
  | [] => []
  | p :: ps => (if p.1 = k then (k, v) else p) :: replaceKey k v ps

/-- The JavaScript object-spread merge `{...variables, ...{[k]: v}}`: an
existing key keeps its original position and gets the new value; a new key is
appended at the end. -/
def insertVar (m : List (String × Variable)) (k : String) (v : Variable) :
    List (String × Variable) :=
  if hasKey k m then replaceKey k v m else m ++ [(k, v)]

/-- Merge one analyzer result entry into the clause variable map, guarded by
the `typeof`/truthiness test of the source: only variable objects are
merged, keyed by their camel name. -/
def mergeParam (m : List (String × Variable)) (p : Param) : List (String × Variable) :=
  match p with
  | .var v => insertVar m v.name.camel v
  | _ => m

/-- Term-name synthesis `{clauseName.pascal + capitalizeFirst(termType) +
termIndex, ...}` shared by the timeout and message-content branches. -/
def mkTermName (cn : IdentifierName) (termType : String) (i : Nat) : IdentifierName :=
  { pascal := cn.pascal ++ capitalizeFirst termType ++ toString i
  , camel := cn.camel ++ capitalizeFirst termType ++ toString i
  , snake := cn.snake ++ "_" ++ termType ++ "_" ++ toString i }

/-- Body of the `forEach` over a timeout node: each child whose raw
text coerces to a non-NaN number emits one timeout term and advances the
term index; every other child is skipped. -/
def timeoutStep (cn : IdentifierName) (st : ClauseState) (c : Node) : ClauseState :=
  if jsStringToNumberDefined c.text then
    { st with
      terms := st.terms ++ [Term.timeout (mkTermName cn "timeout" st.termIndex) c.text]
      termIndex := st.termIndex + 1 }
  else st

def runTimeouts (cn : IdentifierName) : ClauseState → List Node → ClauseState
  | st, [] => st
  | st, c :: cs => runTimeouts cn (timeoutStep cn st c) cs

/-- The message-content branch: synthesize the term name at the current
index, run the analyzer, merge discovered variables, push the term in its
one- or three-parameter shape, and advance the index unconditionally. -/
def mcStep (cn : IdentifierName) (st : ClauseState) (op : Node) : Option ClauseState :=
  match parseMessageContent op st.termIndex with
  | none => none
  | some params =>
    let name := mkTermName cn "messageContent" st.termIndex
    let st2 :=
      match params with
      | [p0] =>
        { st with
          vars := mergeParam st.vars p0
          terms := st.terms ++ [Term.mc1 name params] }
      | [p0, p1, p2] =>
        { st with
          vars := mergeParam (mergeParam st.vars p0) p2
          terms := st.terms ++ [Term.mc3 name p1 [p0, p2]] }
      | _ => st
    some { st2 with termIndex := st2.termIndex + 1 }

/-- Dispatch over one operation child of a term node: the timeout branch and
the message-content branch, applied in sequence as in the source. -/
def stepOperation (cn : IdentifierName) (st : ClauseState) (op : Node) : Option ClauseState :=
  let st1 := if op.kind = .timeoutCtx then runTimeouts cn st op.children else st
  if op.kind = .messageContentCtx then mcStep cn st1 op else some st1

/-- `children?.[4].text ?? ''` of the on-breach branch: empty-child node
yields the empty string, a missing fifth child of a nonempty child list is a
throw. -/
def childTextAt4 (n : Node) : Option String :=
  match n.children with
  | [] => some ""
  | cs => (cs.get? 4).map Node.text

/-- `children?.[2].text ?? ''` of the application/process branches. -/
def childTextAt2 (n : Node) : Option String :=
  match n.children with
  | [] => some ""
  | cs => (cs.get? 2).map Node.text

/-- One grandchild of a terms block: a term node dispatches each of its
operation children, anything else is skipped. -/
def termNodeStep (cn : IdentifierName) (st : ClauseState) (tm : Node) : Option ClauseState :=
  if tm.kind = .termCtx then optFold (stepOperation cn) st tm.children else some st

/-- One child of a terms block: a term-or-when node is traversed through its
term children, anything else is skipped. -/
def termOrWhenStep (cn : IdentifierName) (st : ClauseState) (tw : Node) : Option ClauseState :=
  if tw.kind = .termOrWhenCtx then optFold (termNodeStep cn) st tw.children else some st

/-- One direct child of a clause node: an on-breach child overwrites the
error message, a terms child is traversed through its term-or-when and term
levels down to the operation dispatch, everything else is skipped. -/
def clauseChildStep (cn : IdentifierName) (st : ClauseState) (ch : Node) : Option ClauseState :=
  if ch.kind = .onBreachCtx then
    match childTextAt4 ch with
    | none => none
    | some e => some { st with error := e }
  else if ch.kind = .termsCtx then
    optFold (termOrWhenStep cn) st ch.children
  else some st

/-- `rolePlayer().children?.[2].text` of the source: a missing role-player
child of the clause is a throw, a role-player with no children gives
`undefined`, a nonempty child list without a third element is a throw. -/
def rolePlayerText (c : Node) : Option (Option String) :=
  match findKind .rolePlayerCtx c.children with
  | none => none
  | some rp =>
    match rp.children with
    | [] => some none
    | cs =>
      match cs.get? 2 with
      | none => none
      | some n => some (some n.text)

/-- `children?.[0].text ?? ''`: the clause kind token. -/
def clauseTypeOf (c : Node) : String :=
  match c.children with
  | [] => ""
  | x :: _ => x.text

/-- The composed clause name of the source: capitalized kind plus
capitalized local name for pascal, lower-cased kind plus capitalized local
name for camel, underscore-joined raw texts for snake. -/
def clauseNameOf (clauseType nm : String) : IdentifierName :=
  { pascal := capitalizeFirst clauseType ++ capitalizeFirst nm
  , camel := toLowerStr clauseType ++ capitalizeFirst nm
  , snake := clauseType ++ "_" ++ nm }

/-- Lower one clause node: clause type from the first child, clause-local
name from the ID terminal (a throw when absent), the composed clause name,
role player and operation both read from the identical role-player position,
then the fold over the direct children. -/
def lowerClause (c : Node) : Option Clause :=
  match findKind .idTok c.children with
  | none => none
  | some idn =>
    match rolePlayerText c with
    | none => none
    | some rp =>
      match rolePlayerText c with
      | none => none
      | some op =>
        match optFold (clauseChildStep (clauseNameOf (clauseTypeOf c) idn.text))
            initialClauseState c.children with
        | none => none
        | some st =>
          some { name := clauseNameOf (clauseTypeOf c) idn.text
               , type := clauseTypeOf c
               , vars := st.vars.map Prod.snd
               , rolePlayer := rp
               , operation := op
               , terms := st.terms
               , messages := { error := st.error, success := "" } }

/-! ## Contract-level traversal -/

structure TopState where
  beginDate : String
  dueDate : String
  application : String
  process : String
  clauses : List Clause
deriving DecidableEq, Repr

def initialTopState : TopState :=
  { beginDate := "", dueDate := "", application := "", process := "", clauses := [] }

/-- The contract-level variables block is traversed — the nested kind checks
of the source are replayed — but its body is empty (the analyzer call is
commented out), so nothing is produced and nothing can fail. -/
def variableStatementStep (v : Node) : Option Unit :=
  if v.kind = .variableStatementCtx then
    match v.children.get? 2 with
    | some c =>
      if c.kind = .termCtx then
        match c.children.get? 0 with
        | some cur => if cur.kind = .messageContentCtx then some () else some ()
        | none => some ()
      else some ()
    | none => some ()
  else some ()

def processVariablesBlock (item : Node) : Option Unit :=
  optFold (fun _ v => variableStatementStep v) () item.children

def beginDateStep (s : TopState) (bd : Node) : TopState :=
  if bd.kind = .datetimeCtx then { s with beginDate := bd.text } else s

def dueDateStep (s : TopState) (dd : Node) : TopState :=
  if dd.kind = .datetimeCtx then { s with dueDate := dd.text } else s

def dateStep (st : TopState) (d : Node) : TopState :=
  let st1 :=
    if d.kind = .beginDateCtx then d.children.foldl beginDateStep st else st
  if d.kind = .dueDateCtx then d.children.foldl dueDateStep st1 else st1

def processDates (st : TopState) (item : Node) : TopState :=
  item.children.foldl dateStep st

def partyStep (st : TopState) (p : Node) : Option TopState :=
  match (if p.kind = .applicationCtx then
           (childTextAt2 p).map (fun a => { st with application := a })
         else some st) with
  | none => none
  | some st1 =>
    if p.kind = .processCtx then
      (childTextAt2 p).map (fun pr => { st1 with process := pr })
    else some st1

def processParties (st : TopState) (item : Node) : Option TopState :=
  optFold partyStep st item.children

def clauseListStep (s : TopState) (n : Node) : Option TopState :=
  if n.kind = .clauseCtx then
    match lowerClause n with
    | none => none
    | some cl => some { s with clauses := s.clauses ++ [cl] }
  else some s

def processClauses (st : TopState) (item : Node) : Option TopState :=
  optFold clauseListStep st item.children

def topStepVars (st : TopState) (item : Node) : Option TopState :=
  if item.kind = .variablesCtx then (processVariablesBlock item).map (fun _ => st)
  else some st

def topStepDates (st : TopState) (item : Node) : TopState :=
  if item.kind = .datesCtx then processDates st item else st

def topStepParties (st : TopState) (item : Node) : Option TopState :=
  if item.kind = .partiesCtx then processParties st item else some st

def topStepClauses (st : TopState) (item : Node) : Option TopState :=
  if item.kind = .clausesCtx then processClauses st item else some st

/-- One direct child of the contract node, dispatched through the four
sequential kind checks of the source. -/
def topStep (st : TopState) (item : Node) : Option TopState :=
  match topStepVars st item with
  | none => none
  | some stA =>
    match topStepParties (topStepDates stA item) item with
    | none => none
    | some stC => topStepClauses stC item

/-- `CanonicalParser.parse`: contract name from the optional ID terminal,
then the single pass over the direct children, then the assembled contract
with an always-empty contract-level variable list. -/
def parse (tree : Node) : Option Contract :=
  let contractName := ((findKind .idTok tree.children).map Node.text).getD ""
  match optFold topStep initialTopState tree.children with
  | none => none
  | some st =>
    some { name := contractName
         , beginDate := st.beginDate
         , dueDate := st.dueDate
         , application := st.application
         , process := st.process
         , vars := []
         , clauses := st.clauses }

/-! ## Specification-side definitions

Counting and extraction functions used to state the claims, written to
mirror the traversal structure of the lowering so that the theorems below
relate the lowering output to recomputations over the same tree. -/

/-- The variable entries stored in a term record. -/
def termVarParams : Term → List Param
  | .timeout _ _ => []
  | .mc1 _ ps => ps
  | .mc3 _ _ ps => ps

/-- All variable entries of a term list, in traversal order. -/
def paramsOfTerms : List Term → List Param
  | [] => []
  | t :: ts => termVarParams t ++ paramsOfTerms ts

/-- The variable objects among a parameter list (literal strings and the
undefined entry carry no variable). -/
def varsOfParams : List Param → List Variable
  | [] => []
  | .var v :: ps => v :: varsOfParams ps
  | _ :: ps => varsOfParams ps

/-- The variable objects stored in one term record. -/
def varsOfTerm (t : Term) : List Variable :=
  varsOfParams (termVarParams t)

def countStrParams : List Param → Nat
  | [] => 0
  | p :: ps => (if p.isStr then 1 else 0) + countStrParams ps

def countTimeoutTerms : List Term → Nat
  | [] => 0
  | t :: ts => (if t.isTimeout then 1 else 0) + countTimeoutTerms ts

/-- Number of message-content operation nodes among the children of a term
node. -/
def opMC (op : Node) : Nat :=
  if op.kind = .messageContentCtx then 1 else 0

def countMCOps (ops : List Node) : Nat := sumMap opMC ops

def termNodeMC (tm : Node) : Nat :=
  if tm.kind = .termCtx then countMCOps tm.children else 0

def termOrWhenMC (tw : Node) : Nat :=
  if tw.kind = .termOrWhenCtx then sumMap termNodeMC tw.children else 0

def clauseChildMC (ch : Node) : Nat :=
  if ch.kind = .onBreachCtx then 0
  else if ch.kind = .termsCtx then sumMap termOrWhenMC ch.children
  else 0

/-- Number of message-content nodes encountered by the lowering of one
clause, mirroring its traversal structure. -/
def countMCClauseChildren (cs : List Node) : Nat := sumMap clauseChildMC cs

/-- Children of a timeout node whose raw text coerces to a non-NaN number. -/
def countNumericChildren : List Node → Nat
  | [] => 0
  | c :: cs => (if jsStringToNumberDefined c.text then 1 else 0) + countNumericChildren cs

/-- The timeout terms the timeout branch emits: one per numeric-text child,
named with consecutive term indices starting at `i`. -/
def timeoutEmits (cn : IdentifierName) (i : Nat) : List Node → List Term
  | [] => []
  | c :: cs =>
    if jsStringToNumberDefined c.text then
      Term.timeout (mkTermName cn "timeout" i) c.text :: timeoutEmits cn (i + 1) cs
    else timeoutEmits cn i cs

/-- The operand type a comparator entry induces, as the claims phrase it:
the raw tokens `==` and `!=` give `TEXT`, anything else gives `NUMBER`. -/
def compInferred (p : Param) : String :=
  match p with
  | .str s => if s = "==" ∨ s = "!=" then "TEXT" else "NUMBER"
  | _ => "NUMBER"

/-- An operand entry of a binary comparison: either a raw literal string or
a variable object carrying the inferred type `ty`. -/
def isOperandOf (ty : String) (p : Param) : Prop :=
  (∃ s, p = .str s) ∨ (∃ v, p = .var v ∧ v.type = ty)

/-- The per-term invariant every term record produced by the lowering
satisfies: timeout terms are unconstrained; a one-parameter message-content
term holds exactly one boolean variable; a three-parameter one holds exactly
two operand entries, each a literal string or a variable of the
comparator-inferred type. -/
def termOK : Term → Prop
  | .timeout _ _ => True
  | .mc1 _ ps => ∃ v, ps = [Param.var v] ∧ v.type = "boolean"
  | .mc3 _ comp ps =>
    ∃ p0 p2, ps = [p0, p2] ∧
      isOperandOf (compInferred comp) p0 ∧ isOperandOf (compInferred comp) p2

/-- The clause-level invariant: every term satisfies `termOK`, the clause
variable list is the camel-name-deduplicated merge of the variable entries
of its terms (in first-discovery order with later values overwriting), its
camel names are pairwise distinct, and operation equals role player. -/
def clauseOK (cl : Clause) : Prop :=
  (∀ tm ∈ cl.terms, termOK tm) ∧
  cl.vars = (List.foldl mergeParam [] (paramsOfTerms cl.terms)).map Prod.snd ∧
  (cl.vars.map (fun v => v.name.camel)).Nodup ∧
  cl.operation = cl.rolePlayer

/-- The internal invariant of the per-clause lowering state. -/
def stInv (st : ClauseState) : Prop :=
  (∀ tm ∈ st.terms, termOK tm) ∧
  st.vars = List.foldl mergeParam [] (paramsOfTerms st.terms) ∧
  (∀ kv ∈ st.vars, kv.1 = kv.2.name.camel) ∧
  (st.vars.map Prod.fst).Nodup

/-! ## Concrete trees used as evaluation inputs -/

def tok (s : String) : Node := Node.mk .token s []

def idT (s : String) : Node := Node.mk .idTok s []

def mcNodeAmount : Node :=
  Node.mk .messageContentCtx ""
    [tok "MessageContent", tok "(", tok "amount", tok ">", tok "100", tok ")"]

def mcNodePresence : Node :=
  Node.mk .messageContentCtx ""
    [tok "MessageContent", tok "(", tok "\"xpath\"", tok ")"]

def rpNodeApp : Node :=
  Node.mk .rolePlayerCtx "" [tok "rolePlayer", tok "=", tok "application"]

def toNode86400 : Node :=
  Node.mk .timeoutCtx "" [tok "Timeout", tok "(", tok "86400", tok ")"]

def termsNodeOf (ops : List Node) : Node :=
  Node.mk .termsCtx "" [Node.mk .termOrWhenCtx "" [Node.mk .termCtx "" ops]]

def clauseNodeT1 : Node :=
  Node.mk .clauseCtx ""
    [tok "right", idT "payment", rpNodeApp, termsNodeOf [mcNodeAmount, toNode86400]]

def treeT1 : Node :=
  Node.mk .token "" [idT "Sample", Node.mk .clausesCtx "" [clauseNodeT1]]

def varAmount : Variable :=
  { name := { pascal := "Amount", camel := "amount", snake := "amount" }, type := "NUMBER" }

def termT1mc : Term :=
  Term.mc3
    { pascal := "RightPaymentMessageContent0"
    , camel := "rightPaymentMessageContent0"
    , snake := "right_payment_messageContent_0" }
    (Param.str ">")
    [Param.var varAmount, Param.str "100"]

def termT1to : Term :=
  Term.timeout
    { pascal := "RightPaymentTimeout1"
    , camel := "rightPaymentTimeout1"
    , snake := "right_payment_timeout_1" }
    "86400"

def clauseT1 : Clause :=
  { name := { pascal := "RightPayment", camel := "rightPayment", snake := "right_payment" }
  , type := "right"
  , vars := [varAmount]
  , rolePlayer := some "application"
  , operation := some "application"
  , terms := [termT1mc, termT1to]
  , messages := { error := "", success := "" } }

def contractT1 : Contract :=
  { name := "Sample"
  , beginDate := ""
  , dueDate := ""
  , application := ""
  , process := ""
  , vars := []
  , clauses := [clauseT1] }

def cnT1 : IdentifierName :=
  { pascal := "RightPayment", camel := "rightPayment", snake := "right_payment" }

def stT1 : ClauseState :=
  { error := ""
  , terms := [termT1mc, termT1to]
  , vars := [("amount", varAmount)]
  , termIndex := 2 }

/-- The scenario of claim C8: a clause whose kind token reads `PENALTY` and
whose local name is `lateDelivery`, holding one `Timeout(86400)` term. -/
def clauseNodeC8 : Node :=
  Node.mk .clauseCtx ""
    [tok "PENALTY", idT "lateDelivery", rpNodeApp, termsNodeOf [toNode86400]]

def varsBlockNode : Node :=
  Node.mk .variablesCtx ""
    [Node.mk .variableStatementCtx ""
      [tok "a", tok "=", Node.mk .termCtx "" [mcNodePresence]]]

/-! ## Generic fold lemmas -/

theorem optFold_pres {α β : Type} (P : α → Prop) (f : α → β → Option α)
    (hf : ∀ a b a2, f a b = some a2 → P a → P a2) :
    ∀ (l : List β) (a a2), optFold f a l = some a2 → P a → P a2 := by
  intro l
  induction l with
  | nil =>
    intro a a2 h hp
    simp only [optFold] at h
    cases h
    exact hp
  | cons b bs ih =>
    intro a a2 h hp
    cases hb : f a b with
    | none =>
      simp only [optFold, hb] at h
      exact Option.noConfusion h
    | some a1 =>
      simp only [optFold, hb] at h
      exact ih a1 a2 h (hf a b a1 hb hp)

/-! ## Counting lemmas -/

theorem countTimeoutTerms_append (ts us : List Term) :
    countTimeoutTerms (ts ++ us) = countTimeoutTerms ts + countTimeoutTerms us := by
  induction ts with
  | nil => simp [countTimeoutTerms]
  | cons t ts ih =>
    simp only [List.cons_append, countTimeoutTerms, List.append_eq]
    rw [ih]
    omega

theorem paramsOfTerms_append (ts us : List Term) :
    paramsOfTerms (ts ++ us) = paramsOfTerms ts ++ paramsOfTerms us := by
  induction ts with
  | nil => rfl
  | cons t ts ih => simp [paramsOfTerms, ih]

theorem countTimeoutTerms_timeoutEmits (cn : IdentifierName) :
    ∀ (cs : List Node) (i : Nat),
      countTimeoutTerms (timeoutEmits cn i cs) = countNumericChildren cs := by
  intro cs
  induction cs with
  | nil => intro i; rfl
  | cons c cs ih =>
    intro i
    by_cases h : jsStringToNumberDefined c.text = true
    · simp [timeoutEmits, countNumericChildren, h, countTimeoutTerms, Term.isTimeout, ih]
    · simp [timeoutEmits, countNumericChildren, h, ih]

theorem timeoutEmits_all_timeout (cn : IdentifierName) :
    ∀ (cs : List Node) (i : Nat) (t : Term), t ∈ timeoutEmits cn i cs → t.isTimeout = true := by
  intro cs
  induction cs with
  | nil => intro i t ht; cases ht
  | cons c cs ih =>
    intro i t ht
    by_cases h : jsStringToNumberDefined c.text = true
    · simp only [timeoutEmits, h, if_true, List.mem_cons] at ht
      cases ht with
      | inl he => rw [he]; rfl
      | inr hm => exact ih (i + 1) t hm
    · simp only [timeoutEmits, h] at ht
      exact ih i t ht

theorem paramsOfTerms_timeoutEmits (cn : IdentifierName) :
    ∀ (cs : List Node) (i : Nat), paramsOfTerms (timeoutEmits cn i cs) = [] := by
  intro cs
  induction cs with
  | nil => intro i; rfl
  | cons c cs ih =>
    intro i
    by_cases h : jsStringToNumberDefined c.text = true
    · simp [timeoutEmits, h, paramsOfTerms, termVarParams, ih]
    · simp [timeoutEmits, h, ih]

/-! ## Characterization of the timeout branch -/

theorem runTimeouts_eq (cn : IdentifierName) :
    ∀ (cs : List Node) (st : ClauseState),
      runTimeouts cn st cs =
        { error := st.error
        , terms := st.terms ++ timeoutEmits cn st.termIndex cs
        , vars := st.vars
        , termIndex := st.termIndex + countNumericChildren cs } := by
  intro cs
  induction cs with
  | nil => intro st; simp [runTimeouts, timeoutEmits, countNumericChildren]
  | cons c cs ih =>
    intro st
    by_cases h : jsStringToNumberDefined c.text = true
    · simp only [runTimeouts, timeoutStep, h, if_true]
      rw [ih]
      simp [timeoutEmits, countNumericChildren, h, List.append_assoc]
      all_goals omega
    · simp only [runTimeouts, timeoutStep, h]
      rw [ih]
      simp [timeoutEmits, countNumericChildren, h]

/-! ## Shape of the analyzer result -/

theorem operandParam_isOperand (v : Option Node) (i slot : Nat) (ty : String) :
    isOperandOf ty (operandParam v i slot ty) := by
  cases v with
  | none => exact Or.inr ⟨_, rfl, rfl⟩
  | some n =>
    simp only [operandParam, anonOperandVar, isOperandOf]
    split
    · exact Or.inl ⟨_, rfl⟩
    · split
      · exact Or.inr ⟨_, rfl, rfl⟩
      · exact Or.inr ⟨_, rfl, rfl⟩

theorem compInferred_comparatorParam (c : Option String) :
    compInferred (comparatorParam c) = inferType c := by
  cases c with
  | none => rfl
  | some s => rfl

theorem parseMessageContent_shape (term : Node) (i : Nat) (ps : List Param)
    (h : parseMessageContent term i = some ps) :
    (∃ v, ps = [Param.var v] ∧ v.type = "boolean") ∨
    (∃ p0 p1 p2, ps = [p0, p1, p2] ∧
      isOperandOf (compInferred p1) p0 ∧ isOperandOf (compInferred p1) p2) := by
  unfold parseMessageContent at h
  by_cases h4 : term.children.length = 4
  · rw [if_pos h4] at h
    cases h
    exact Or.inl ⟨_, rfl, rfl⟩
  · rw [if_neg h4] at h
    cases hc : term.children with
    | nil =>
      rw [hc] at h
      have h2 : some [operandParam none i 1 (inferType none), comparatorParam none,
          operandParam none i 2 (inferType none)] = some ps := h
      cases h2
      refine Or.inr ⟨_, _, _, rfl, ?_, ?_⟩
      · rw [compInferred_comparatorParam]; exact operandParam_isOperand none i 1 _
      · rw [compInferred_comparatorParam]; exact operandParam_isOperand none i 2 _
    | cons c0 rest =>
      rw [hc] at h
      have h2 : (match (c0 :: rest).get? 3 with
          | none => (none : Option (List Param))
          | some c3 =>
            some [operandParam ((c0 :: rest).get? 2) i 1 (inferType (some c3.text)),
              comparatorParam (some c3.text),
              operandParam ((c0 :: rest).get? 4) i 2 (inferType (some c3.text))]) = some ps := h
      cases hg : (c0 :: rest).get? 3 with
      | none =>
        rw [hg] at h2
        exact Option.noConfusion h2
      | some c3 =>
        rw [hg] at h2
        have h3 : some [operandParam ((c0 :: rest).get? 2) i 1 (inferType (some c3.text)),
            comparatorParam (some c3.text),
            operandParam ((c0 :: rest).get? 4) i 2 (inferType (some c3.text))] = some ps := h2
        cases h3
        refine Or.inr ⟨_, _, _, rfl, ?_, ?_⟩
        · rw [compInferred_comparatorParam]; exact operandParam_isOperand _ i 1 _
        · rw [compInferred_comparatorParam]; exact operandParam_isOperand _ i 2 _

/-! ## Variable-map lemmas -/

theorem hasKey_false_not_mem (k : String) :
    ∀ (m : List (String × Variable)), hasKey k m = false → k ∉ m.map Prod.fst := by
  intro m
  induction m with
  | nil => intro _ hmem; cases hmem
  | cons p ps ih =>
    intro hk
    by_cases hp : p.1 = k
    · simp [hasKey, hp] at hk
    · simp only [hasKey, hp, if_false] at hk
      simp only [List.map_cons, List.mem_cons]
      intro hmem
      cases hmem with
      | inl he => exact hp he.symm
      | inr hm => exact ih hk hm

theorem replaceKey_keys (k : String) (v : Variable) :
    ∀ m : List (String × Variable), (replaceKey k v m).map Prod.fst = m.map Prod.fst := by
  intro m
  induction m with
  | nil => rfl
  | cons p ps ih =>
    by_cases hp : p.1 = k
    · simp [replaceKey, hp, ih]
    · simp [replaceKey, hp, ih]

theorem replaceKey_keyMatch (k : String) (v : Variable) (hkv : k = v.name.camel) :
    ∀ m : List (String × Variable), (∀ kv ∈ m, kv.1 = kv.2.name.camel) →
      ∀ kv ∈ replaceKey k v m, kv.1 = kv.2.name.camel := by
  intro m
  induction m with
  | nil => intro _ kv hkv2; cases hkv2
  | cons p ps ih =>
    intro hm kv hmem
    simp only [replaceKey, List.mem_cons] at hmem
    cases hmem with
    | inl he =>
      subst he
      by_cases hp : p.1 = k
      · simp only [hp, if_true]; exact hkv
      · simp only [hp, if_false]; exact hm p (List.mem_cons_self p ps)
    | inr hmm => exact ih (fun kv2 h2 => hm kv2 (List.mem_cons_of_mem p h2)) kv hmm

theorem insertVar_keyMatch (m : List (String × Variable)) (v : Variable)
    (hm : ∀ kv ∈ m, kv.1 = kv.2.name.camel) :
    ∀ kv ∈ insertVar m v.name.camel v, kv.1 = kv.2.name.camel := by
  unfold insertVar
  split
  · exact replaceKey_keyMatch _ v rfl m hm
  · intro kv hmem
    rw [List.mem_append] at hmem
    cases hmem with
    | inl h => exact hm kv h
    | inr h =>
      simp only [List.mem_singleton] at h
      subst h
      rfl

theorem insertVar_nodup (m : List (String × Variable)) (k : String) (v : Variable)
    (hm : (m.map Prod.fst).Nodup) :
    ((insertVar m k v).map Prod.fst).Nodup := by
  unfold insertVar
  split
  · rw [replaceKey_keys]; exact hm
  · rename_i hkey
    rw [List.map_append]
    simp only [List.map_cons, List.map_nil]
    rw [List.nodup_append]
    refine ⟨hm, List.nodup_singleton _, ?_⟩
    intro a ha hb
    simp only [List.mem_singleton] at hb
    exact hasKey_false_not_mem k m (by simpa using hkey) (hb ▸ ha)

theorem mergeParam_keyMatch (m : List (String × Variable)) (p : Param)
    (hm : ∀ kv ∈ m, kv.1 = kv.2.name.camel) :
    ∀ kv ∈ mergeParam m p, kv.1 = kv.2.name.camel := by
  cases p with
  | var v => exact insertVar_keyMatch m v hm
  | str s => exact hm
  | jsUndefined => exact hm

theorem mergeParam_nodup (m : List (String × Variable)) (p : Param)
    (hm : (m.map Prod.fst).Nodup) :
    ((mergeParam m p).map Prod.fst).Nodup := by
  cases p with
  | var v => exact insertVar_nodup m v.name.camel v hm
  | str s => exact hm
  | jsUndefined => exact hm

/-! ## Characterization of the message-content branch -/

theorem mcStep_cases (cn : IdentifierName) (st : ClauseState) (op : Node) (st2 : ClauseState)
    (h : mcStep cn st op = some st2) :
    ∃ ps, parseMessageContent op st.termIndex = some ps ∧
      ((∃ p0, ps = [p0] ∧
          st2 = { st with
                  vars := mergeParam st.vars p0
                , terms := st.terms ++ [Term.mc1 (mkTermName cn "messageContent" st.termIndex) ps]
                , termIndex := st.termIndex + 1 }) ∨
       (∃ p0 p1 p2, ps = [p0, p1, p2] ∧
          st2 = { st with
                  vars := mergeParam (mergeParam st.vars p0) p2
                , terms := st.terms ++
                    [Term.mc3 (mkTermName cn "messageContent" st.termIndex) p1 [p0, p2]]
                , termIndex := st.termIndex + 1 })) := by
  unfold mcStep at h
  cases hp : parseMessageContent op st.termIndex with
  | none => rw [hp] at h; exact Option.noConfusion h
  | some ps =>
    rw [hp] at h
    rcases parseMessageContent_shape op st.termIndex ps hp with ⟨v, hps, _⟩ | ⟨p0, p1, p2, hps, _, _⟩
    · subst hps
      have h2 : some ({ st with
          vars := mergeParam st.vars (Param.var v)
        , terms := st.terms ++
            [Term.mc1 (mkTermName cn "messageContent" st.termIndex) [Param.var v]]
        , termIndex := st.termIndex + 1 } : ClauseState) = some st2 := h
      cases h2
      exact ⟨_, rfl, Or.inl ⟨_, rfl, rfl⟩⟩
    · subst hps
      have h2 : some ({ st with
          vars := mergeParam (mergeParam st.vars p0) p2
        , terms := st.terms ++
            [Term.mc3 (mkTermName cn "messageContent" st.termIndex) p1 [p0, p2]]
        , termIndex := st.termIndex + 1 } : ClauseState) = some st2 := h
      cases h2
      exact ⟨_, rfl, Or.inr ⟨_, _, _, rfl, rfl⟩⟩

theorem mcStep_delta (cn : IdentifierName) (st : ClauseState) (op : Node) (st2 : ClauseState)
    (h : mcStep cn st op = some st2) :
    st2.termIndex = st.termIndex + 1 ∧
    countTimeoutTerms st2.terms = countTimeoutTerms st.terms := by
  rcases mcStep_cases cn st op st2 h with ⟨ps, _, hcase⟩
  rcases hcase with ⟨p0, _, hst⟩ | ⟨p0, p1, p2, _, hst⟩ <;>
    (subst hst
     refine ⟨rfl, ?_⟩
     simp [countTimeoutTerms_append, countTimeoutTerms, Term.isTimeout])

/-! ## The term-index accounting (claim C2 infrastructure) -/

theorem optFold_delta {g : Node → Nat} {f : ClauseState → Node → Option ClauseState}
    (hf : ∀ st n st2, f st n = some st2 →
      st2.termIndex + countTimeoutTerms st.terms =
        st.termIndex + countTimeoutTerms st2.terms + g n) :
    ∀ (l : List Node) (st st2), optFold f st l = some st2 →
      st2.termIndex + countTimeoutTerms st.terms =
        st.termIndex + countTimeoutTerms st2.terms + sumMap g l := by
  intro l
  induction l with
  | nil =>
    intro st st2 h
    simp only [optFold] at h
    cases h
    simp [sumMap]
  | cons n ns ih =>
    intro st st2 h
    cases hb : f st n with
    | none =>
      simp only [optFold, hb] at h
      exact Option.noConfusion h
    | some st1 =>
      simp only [optFold, hb] at h
      have h1 := hf st n st1 hb
      have h2 := ih st1 st2 h
      simp only [sumMap]
      omega

theorem stepOperation_delta (cn : IdentifierName) :
    ∀ (st : ClauseState) (op : Node) (st2 : ClauseState),
      stepOperation cn st op = some st2 →
      st2.termIndex + countTimeoutTerms st.terms =
        st.termIndex + countTimeoutTerms st2.terms + opMC op := by
  intro st op st2 h
  simp only [stepOperation] at h
  by_cases hmc : op.kind = .messageContentCtx
  · have ht : ¬ op.kind = .timeoutCtx := by rw [hmc]; decide
    rw [if_neg ht, if_pos hmc] at h
    rcases mcStep_delta cn st op st2 h with ⟨h1, h2⟩
    simp [opMC, hmc]
    omega
  · rw [if_neg hmc] at h
    by_cases ht : op.kind = .timeoutCtx
    · rw [if_pos ht] at h
      cases h
      rw [runTimeouts_eq]
      simp [opMC, hmc, countTimeoutTerms_append, countTimeoutTerms_timeoutEmits]
      omega
    · rw [if_neg ht] at h
      cases h
      simp [opMC, hmc]

theorem termNodeStep_delta (cn : IdentifierName) :
    ∀ (st : ClauseState) (tm : Node) (st2 : ClauseState),
      termNodeStep cn st tm = some st2 →
      st2.termIndex + countTimeoutTerms st.terms =
        st.termIndex + countTimeoutTerms st2.terms + termNodeMC tm := by
  intro st tm st2 h
  unfold termNodeStep at h
  by_cases hk : tm.kind = .termCtx
  · rw [if_pos hk] at h
    have := optFold_delta (stepOperation_delta cn) tm.children st st2 h
    simpa [termNodeMC, hk, countMCOps] using this
  · rw [if_neg hk] at h
    cases h
    simp [termNodeMC, hk]

theorem termOrWhenStep_delta (cn : IdentifierName) :
    ∀ (st : ClauseState) (tw : Node) (st2 : ClauseState),
      termOrWhenStep cn st tw = some st2 →
      st2.termIndex + countTimeoutTerms st.terms =
        st.termIndex + countTimeoutTerms st2.terms + termOrWhenMC tw := by
  intro st tw st2 h
  unfold termOrWhenStep at h
  by_cases hk : tw.kind = .termOrWhenCtx
  · rw [if_pos hk] at h
    have := optFold_delta (termNodeStep_delta cn) tw.children st st2 h
    simpa [termOrWhenMC, hk] using this
  · rw [if_neg hk] at h
    cases h
    simp [termOrWhenMC, hk]

theorem clauseChildStep_delta (cn : IdentifierName) :
    ∀ (st : ClauseState) (ch : Node) (st2 : ClauseState),
      clauseChildStep cn st ch = some st2 →
      st2.termIndex + countTimeoutTerms st.terms =
        st.termIndex + countTimeoutTerms st2.terms + clauseChildMC ch := by
  intro st ch st2 h
  unfold clauseChildStep at h
  by_cases hob : ch.kind = .onBreachCtx
  · rw [if_pos hob] at h
    cases hct : childTextAt4 ch with
    | none => rw [hct] at h; exact Option.noConfusion h
    | some e =>
      rw [hct] at h
      cases h
      simp [clauseChildMC, hob]
  · rw [if_neg hob] at h
    by_cases hts : ch.kind = .termsCtx
    · rw [if_pos hts] at h
      have := optFold_delta (termOrWhenStep_delta cn) ch.children st st2 h
      simpa [clauseChildMC, hob, hts] using this
    · rw [if_neg hts] at h
      cases h
      simp [clauseChildMC, hob, hts]

/-! ## Preservation of the clause-state invariant -/

theorem timeoutStep_pres (cn : IdentifierName) (st : ClauseState) (c : Node)
    (h : stInv st) : stInv (timeoutStep cn st c) := by
  unfold timeoutStep
  split
  · obtain ⟨h1, h2, h3, h4⟩ := h
    refine ⟨?_, ?_, h3, h4⟩
    · intro tm hmem
      rw [List.mem_append] at hmem
      cases hmem with
      | inl hm => exact h1 tm hm
      | inr hm =>
        simp only [List.mem_singleton] at hm
        subst hm
        exact True.intro
    · rw [paramsOfTerms_append]
      simpa [paramsOfTerms, termVarParams] using h2
  · exact h

theorem runTimeouts_pres (cn : IdentifierName) :
    ∀ (cs : List Node) (st : ClauseState), stInv st → stInv (runTimeouts cn st cs) := by
  intro cs
  induction cs with
  | nil => intro st h; exact h
  | cons c cs ih =>
    intro st h
    exact ih _ (timeoutStep_pres cn st c h)

theorem mcStep_pres (cn : IdentifierName) (st : ClauseState) (op : Node) (st2 : ClauseState)
    (h : mcStep cn st op = some st2) (hinv : stInv st) : stInv st2 := by
  obtain ⟨h1, h2, h3, h4⟩ := hinv
  rcases mcStep_cases cn st op st2 h with ⟨ps, hp, hcase⟩
  rcases hcase with ⟨p0, hps1, hst⟩ | ⟨p0, p1, p2, hps3, hst⟩
  · -- one-parameter branch: by the analyzer shape, the entry is a boolean variable
    subst hst
    refine ⟨?_, ?_, mergeParam_keyMatch st.vars p0 h3, mergeParam_nodup st.vars p0 h4⟩
    · intro tm hmem
      rw [List.mem_append] at hmem
      cases hmem with
      | inl hm => exact h1 tm hm
      | inr hm =>
        simp only [List.mem_singleton] at hm
        subst hm
        rcases parseMessageContent_shape op st.termIndex ps hp with ⟨v, hpv, hty⟩ | ⟨q0, q1, q2, hpq, _, _⟩
        · exact ⟨v, hpv, hty⟩
        · rw [hps1] at hpq
          simp at hpq
    · rw [paramsOfTerms_append]
      simp only [paramsOfTerms, termVarParams, List.append_nil]
      rw [List.foldl_append, ← h2, hps1]
      rfl
  · -- three-parameter branch: both operands are merged and stored
    subst hst
    refine ⟨?_, ?_,
      mergeParam_keyMatch _ p2 (mergeParam_keyMatch st.vars p0 h3),
      mergeParam_nodup _ p2 (mergeParam_nodup st.vars p0 h4)⟩
    · intro tm hmem
      rw [List.mem_append] at hmem
      cases hmem with
      | inl hm => exact h1 tm hm
      | inr hm =>
        simp only [List.mem_singleton] at hm
        subst hm
        rcases parseMessageContent_shape op st.termIndex ps hp with ⟨v, hpv, _⟩ | ⟨q0, q1, q2, hpq, hop0, hop2⟩
        · rw [hps3] at hpv
          simp at hpv
        · rw [hps3] at hpq
          have hq : p0 = q0 ∧ p1 = q1 ∧ p2 = q2 := by simpa using hpq
          obtain ⟨e0, e1, e2⟩ := hq
          rw [e0, e1, e2]
          exact ⟨q0, q2, rfl, hop0, hop2⟩
    · rw [paramsOfTerms_append]
      simp only [paramsOfTerms, termVarParams, List.append_nil]
      rw [List.foldl_append, ← h2]
      rfl

theorem stepOperation_pres (cn : IdentifierName) :
    ∀ (st : ClauseState) (op : Node) (st2 : ClauseState),
      stepOperation cn st op = some st2 → stInv st → stInv st2 := by
  intro st op st2 h hinv
  simp only [stepOperation] at h
  by_cases hmc : op.kind = .messageContentCtx
  · have ht : ¬ op.kind = .timeoutCtx := by rw [hmc]; decide
    rw [if_neg ht, if_pos hmc] at h
    exact mcStep_pres cn st op st2 h hinv
  · rw [if_neg hmc] at h
    by_cases ht : op.kind = .timeoutCtx
    · rw [if_pos ht] at h
      cases h
      exact runTimeouts_pres cn op.children st hinv
    · rw [if_neg ht] at h
      cases h
      exact hinv

theorem termNodeStep_pres (cn : IdentifierName) :
    ∀ (st : ClauseState) (tm : Node) (st2 : ClauseState),
      termNodeStep cn st tm = some st2 → stInv st → stInv st2 := by
  intro st tm st2 h hinv
  unfold termNodeStep at h
  by_cases hk : tm.kind = .termCtx
  · rw [if_pos hk] at h
    exact optFold_pres stInv (stepOperation cn) (stepOperation_pres cn) tm.children st st2 h hinv
  · rw [if_neg hk] at h
    cases h
    exact hinv

theorem termOrWhenStep_pres (cn : IdentifierName) :
    ∀ (st : ClauseState) (tw : Node) (st2 : ClauseState),
      termOrWhenStep cn st tw = some st2 → stInv st → stInv st2 := by
  intro st tw st2 h hinv
  unfold termOrWhenStep at h
  by_cases hk : tw.kind = .termOrWhenCtx
  · rw [if_pos hk] at h
    exact optFold_pres stInv (termNodeStep cn) (termNodeStep_pres cn) tw.children st st2 h hinv
  · rw [if_neg hk] at h
    cases h
    exact hinv

theorem clauseChildStep_pres (cn : IdentifierName) :
    ∀ (st : ClauseState) (ch : Node) (st2 : ClauseState),
      clauseChildStep cn st ch = some st2 → stInv st → stInv st2 := by
  intro st ch st2 h hinv
  unfold clauseChildStep at h
  by_cases hob : ch.kind = .onBreachCtx
  · rw [if_pos hob] at h
    cases hct : childTextAt4 ch with
    | none => rw [hct] at h; exact Option.noConfusion h
    | some e =>
      rw [hct] at h
      obtain rfl := Option.some.inj h
      exact hinv
  · rw [if_neg hob] at h
    by_cases hts : ch.kind = .termsCtx
    · rw [if_pos hts] at h
      exact optFold_pres stInv (termOrWhenStep cn) (termOrWhenStep_pres cn) ch.children st st2 h hinv
    · rw [if_neg hts] at h
      cases h
      exact hinv

theorem stInv_initial : stInv initialClauseState :=
  ⟨fun tm h => absurd h (List.not_mem_nil tm), rfl,
   fun kv h => absurd h (List.not_mem_nil kv), List.nodup_nil⟩

/-! ## From the state invariant to the clause invariant -/

theorem map_snd_camel_nodup :
    ∀ (m : List (String × Variable)),
      (∀ kv ∈ m, kv.1 = kv.2.name.camel) → (m.map Prod.fst).Nodup →
      ((m.map Prod.snd).map (fun v => v.name.camel)).Nodup := by
  intro m
  induction m with
  | nil => intro _ _; simp
  | cons p ps ih =>
    intro h3 h4
    simp only [List.map_cons, List.nodup_cons] at h4 ⊢
    obtain ⟨hnot, h4t⟩ := h4
    refine ⟨?_, ih (fun kv h => h3 kv (List.mem_cons_of_mem p h)) h4t⟩
    intro hmem
    apply hnot
    rw [List.mem_map] at hmem
    obtain ⟨v, hv, hveq⟩ := hmem
    rw [List.mem_map] at hv
    obtain ⟨kv, hkv, hkveq⟩ := hv
    rw [List.mem_map]
    refine ⟨kv, hkv, ?_⟩
    rw [h3 kv (List.mem_cons_of_mem p hkv), hkveq, hveq]
    exact (h3 p (List.mem_cons_self p ps)).symm

theorem lowerClause_ok (c : Node) (cl : Clause) (h : lowerClause c = some cl) :
    clauseOK cl := by
  unfold lowerClause at h
  cases hid : findKind .idTok c.children with
  | none => rw [hid] at h; exact Option.noConfusion h
  | some idn =>
    rw [hid] at h
    have hA : (match rolePlayerText c with
        | none => none
        | some rp =>
          match rolePlayerText c with
          | none => none
          | some op =>
            match optFold (clauseChildStep (clauseNameOf (clauseTypeOf c) idn.text))
                initialClauseState c.children with
            | none => none
            | some st =>
              some { name := clauseNameOf (clauseTypeOf c) idn.text
                   , type := clauseTypeOf c
                   , vars := st.vars.map Prod.snd
                   , rolePlayer := rp
                   , operation := op
                   , terms := st.terms
                   , messages := { error := st.error, success := "" } }) = some cl := h
    clear h
    cases hrp : rolePlayerText c with
    | none => rw [hrp] at hA; exact Option.noConfusion hA
    | some rp =>
      rw [hrp] at hA
      have hB : (match optFold (clauseChildStep (clauseNameOf (clauseTypeOf c) idn.text))
          initialClauseState c.children with
        | none => none
        | some st =>
          some { name := clauseNameOf (clauseTypeOf c) idn.text
               , type := clauseTypeOf c
               , vars := st.vars.map Prod.snd
               , rolePlayer := rp
               , operation := rp
               , terms := st.terms
               , messages := { error := st.error, success := "" } }) = some cl := hA

      clear hA
      cases hfold : optFold (clauseChildStep (clauseNameOf (clauseTypeOf c) idn.text))
          initialClauseState c.children with
      | none => rw [hfold] at hB; exact Option.noConfusion hB
      | some st =>
        rw [hfold] at hB
        have hC : some
            { name := clauseNameOf (clauseTypeOf c) idn.text
            , type := clauseTypeOf c
            , vars := st.vars.map Prod.snd
            , rolePlayer := rp
            , operation := rp
            , terms := st.terms
            , messages := { error := st.error, success := "" } } = some cl := hB
        obtain rfl := Option.some.inj hC
        have hinv := optFold_pres stInv _ (clauseChildStep_pres _) c.children
          initialClauseState st hfold stInv_initial
        obtain ⟨h1, h2, h3, h4⟩ := hinv
        refine ⟨h1, ?_, ?_, rfl⟩
        · rw [h2]
        · exact map_snd_camel_nodup st.vars h3 h4

/-! ## Top-level plumbing -/

theorem variableStatementStep_eq (v : Node) : variableStatementStep v = some () := by
  unfold variableStatementStep
  repeat' split
  all_goals rfl

theorem processVariablesBlock_eq (item : Node) : processVariablesBlock item = some () := by
  unfold processVariablesBlock
  generalize item.children = l
  induction l with
  | nil => rfl
  | cons v vs ih =>
    simp only [optFold, variableStatementStep_eq] at ih ⊢
    exact ih

theorem topStepVars_eq (st : TopState) (item : Node) : topStepVars st item = some st := by
  unfold topStepVars
  by_cases hk : item.kind = .variablesCtx
  · rw [if_pos hk, processVariablesBlock_eq]
    rfl
  · rw [if_neg hk]

theorem beginDateFold_clauses :
    ∀ (l : List Node) (st : TopState), (List.foldl beginDateStep st l).clauses = st.clauses := by
  intro l
  induction l with
  | nil => intro st; rfl
  | cons d ds ih =>
    intro st
    rw [List.foldl_cons, ih]
    unfold beginDateStep
    split <;> rfl

theorem dueDateFold_clauses :
    ∀ (l : List Node) (st : TopState), (List.foldl dueDateStep st l).clauses = st.clauses := by
  intro l
  induction l with
  | nil => intro st; rfl
  | cons d ds ih =>
    intro st
    rw [List.foldl_cons, ih]
    unfold dueDateStep
    split <;> rfl

theorem dateStep_clauses (st : TopState) (d : Node) : (dateStep st d).clauses = st.clauses := by
  simp only [dateStep]
  by_cases h2 : d.kind = .dueDateCtx
  · rw [if_pos h2, dueDateFold_clauses]
    by_cases h1 : d.kind = .beginDateCtx
    · rw [if_pos h1, beginDateFold_clauses]
    · rw [if_neg h1]
  · rw [if_neg h2]
    by_cases h1 : d.kind = .beginDateCtx
    · rw [if_pos h1, beginDateFold_clauses]
    · rw [if_neg h1]

theorem processDates_clauses (st : TopState) (item : Node) :
    (processDates st item).clauses = st.clauses := by
  unfold processDates
  generalize item.children = l
  induction l generalizing st with
  | nil => rfl
  | cons d ds ih => rw [List.foldl_cons, ih, dateStep_clauses]

theorem topStepDates_clauses (st : TopState) (item : Node) :
    (topStepDates st item).clauses = st.clauses := by
  unfold topStepDates
  by_cases hk : item.kind = .datesCtx
  · rw [if_pos hk, processDates_clauses]
  · rw [if_neg hk]

theorem partyStep_clauses (st : TopState) (p : Node) (st2 : TopState)
    (h : partyStep st p = some st2) : st2.clauses = st.clauses := by
  unfold partyStep at h
  cases hA : (if p.kind = .applicationCtx then
      (childTextAt2 p).map (fun a => { st with application := a }) else some st) with
  | none => rw [hA] at h; exact Option.noConfusion h
  | some st1 =>
    rw [hA] at h
    have hst1 : st1.clauses = st.clauses := by
      by_cases hk : p.kind = .applicationCtx
      · rw [if_pos hk] at hA
        cases hc : childTextAt2 p with
        | none => rw [hc] at hA; exact Option.noConfusion hA
        | some a =>
          rw [hc] at hA
          have hA2 : some ({ st with application := a } : TopState) = some st1 := hA
          obtain rfl := Option.some.inj hA2
          rfl
      · rw [if_neg hk] at hA
        obtain rfl := Option.some.inj hA
        rfl
    have h2 : (if p.kind = .processCtx then
        (childTextAt2 p).map (fun pr => { st1 with process := pr }) else some st1) = some st2 := h
    by_cases hk2 : p.kind = .processCtx
    · rw [if_pos hk2] at h2
      cases hc : childTextAt2 p with
      | none => rw [hc] at h2; exact Option.noConfusion h2
      | some pr =>
        rw [hc] at h2
        have h6 : some ({ st1 with process := pr } : TopState) = some st2 := h2
        obtain rfl := Option.some.inj h6
        exact hst1
    · rw [if_neg hk2] at h2
      obtain rfl := Option.some.inj h2
      exact hst1

theorem processParties_clauses (st : TopState) (item : Node) (st2 : TopState)
    (h : processParties st item = some st2) : st2.clauses = st.clauses := by
  unfold processParties at h
  exact optFold_pres (fun s => s.clauses = st.clauses) partyStep
    (fun a b a2 hab ha => (partyStep_clauses a b a2 hab).trans ha)
    item.children st st2 h rfl

theorem topStepParties_clauses (st : TopState) (item : Node) (st2 : TopState)
    (h : topStepParties st item = some st2) : st2.clauses = st.clauses := by
  unfold topStepParties at h
  by_cases hk : item.kind = .partiesCtx
  · rw [if_pos hk] at h
    exact processParties_clauses st item st2 h
  · rw [if_neg hk] at h
    obtain rfl := Option.some.inj h
    rfl

theorem clauseListStep_pres (s : TopState) (n : Node) (s2 : TopState)
    (h : clauseListStep s n = some s2)
    (hs : ∀ cl ∈ s.clauses, clauseOK cl) : ∀ cl ∈ s2.clauses, clauseOK cl := by
  unfold clauseListStep at h
  by_cases hk : n.kind = .clauseCtx
  · rw [if_pos hk] at h
    cases hl : lowerClause n with
    | none => rw [hl] at h; exact Option.noConfusion h
    | some cl0 =>
      rw [hl] at h
      obtain rfl := Option.some.inj h
      intro cl hmem
      cases List.mem_append.mp hmem with
      | inl hm => exact hs cl hm
      | inr hm =>
        simp only [List.mem_singleton] at hm
        subst hm
        exact lowerClause_ok n cl hl
  · rw [if_neg hk] at h
    obtain rfl := Option.some.inj h
    exact hs

theorem topStepClauses_pres (st : TopState) (item : Node) (st2 : TopState)
    (h : topStepClauses st item = some st2)
    (hs : ∀ cl ∈ st.clauses, clauseOK cl) : ∀ cl ∈ st2.clauses, clauseOK cl := by
  unfold topStepClauses at h
  by_cases hk : item.kind = .clausesCtx
  · rw [if_pos hk] at h
    unfold processClauses at h
    exact optFold_pres (fun s => ∀ cl ∈ s.clauses, clauseOK cl) clauseListStep
      clauseListStep_pres item.children st st2 h hs
  · rw [if_neg hk] at h
    obtain rfl := Option.some.inj h
    exact hs

theorem topStep_pres :
    ∀ (st : TopState) (item : Node) (st2 : TopState),
      topStep st item = some st2 →
      (∀ cl ∈ st.clauses, clauseOK cl) → ∀ cl ∈ st2.clauses, clauseOK cl := by
  intro st item st2 h hs
  unfold topStep at h
  rw [topStepVars_eq] at h
  have h2 : (match topStepParties (topStepDates st item) item with
      | none => none
      | some stC => topStepClauses stC item) = some st2 := h
  cases hP : topStepParties (topStepDates st item) item with
  | none =>
    rw [hP] at h2
    exact Option.noConfusion h2
  | some stC =>
    rw [hP] at h2
    have h3 : topStepClauses stC item = some st2 := h2
    have hC : stC.clauses = st.clauses :=
      (topStepParties_clauses _ item stC hP).trans (topStepDates_clauses st item)
    exact topStepClauses_pres stC item st2 h3 (fun cl hm => hs cl (hC ▸ hm))

/-- Every clause of a successfully canonicalized contract satisfies the
clause invariant. -/
theorem parse_clause_ok (t : Node) (ct : Contract) (h : parse t = some ct) :
    ∀ cl ∈ ct.clauses, clauseOK cl := by
  unfold parse at h
  cases hf : optFold topStep initialTopState t.children with
  | none => rw [hf] at h; exact Option.noConfusion h
  | some st =>
    rw [hf] at h
    have h5 : some
        { name := ((findKind .idTok t.children).map Node.text).getD ""
        , beginDate := st.beginDate
        , dueDate := st.dueDate
        , application := st.application
        , process := st.process
        , vars := ([] : List Variable)
        , clauses := st.clauses } = some ct := h
    obtain rfl := Option.some.inj h5
    exact optFold_pres (fun s => ∀ cl ∈ s.clauses, clauseOK cl) topStep
      topStep_pres t.children initialTopState st hf
      (fun cl hm => absurd hm (List.not_mem_nil cl))

/-! ## The binary analyzer result, entry by entry -/

theorem parseMessageContent_binary (term : Node) (i : Nat) (ps : List Param)
    (h : parseMessageContent term i = some ps) (h4 : term.children.length ≠ 4) :
    ∃ comp, ps = [operandParam (term.children.get? 2) i 1 (inferType comp),
                  comparatorParam comp,
                  operandParam (term.children.get? 4) i 2 (inferType comp)] := by
  unfold parseMessageContent at h
  rw [if_neg h4] at h
  cases hc : term.children with
  | nil =>
    rw [hc] at h
    have h2 : some [operandParam none i 1 (inferType none), comparatorParam none,
        operandParam none i 2 (inferType none)] = some ps := h
    obtain rfl := Option.some.inj h2
    exact ⟨none, rfl⟩
  | cons c0 rest =>
    rw [hc] at h
    have h2 : (match (c0 :: rest).get? 3 with
        | none => (none : Option (List Param))
        | some c3 =>
          some [operandParam ((c0 :: rest).get? 2) i 1 (inferType (some c3.text)),
            comparatorParam (some c3.text),
            operandParam ((c0 :: rest).get? 4) i 2 (inferType (some c3.text))]) = some ps := h
    cases hg : (c0 :: rest).get? 3 with
    | none =>
      rw [hg] at h2
      exact Option.noConfusion h2
    | some c3 =>
      rw [hg] at h2
      have h3 : some [operandParam ((c0 :: rest).get? 2) i 1 (inferType (some c3.text)),
          comparatorParam (some c3.text),
          operandParam ((c0 :: rest).get? 4) i 2 (inferType (some c3.text))] = some ps := h2
      obtain rfl := Option.some.inj h3
      exact ⟨some c3.text, rfl⟩

/-! ## Claim C1 -/

/-- Claim C1: for every message-content term produced by canonicalization,
a comparator entry `==` or `!=` makes every variable synthesized for that
term carry type `TEXT`, any other comparator entry makes them carry
`NUMBER`, and a presence-check term (the four-child node shape, no
comparator) carries exactly one variable, of type `boolean`. -/
theorem C1_message_content_types (t : Node) (ct : Contract) (cl : Clause) (tm : Term)
    (hp : parse t = some ct) (hcl : cl ∈ ct.clauses) (htm : tm ∈ cl.terms) :
    (∀ n ps, tm = Term.mc1 n ps → ∃ v, ps = [Param.var v] ∧ v.type = "boolean") ∧
    (∀ n cp ps v, tm = Term.mc3 n cp ps → Param.var v ∈ ps →
      ((cp = Param.str "==" ∨ cp = Param.str "!=") → v.type = "TEXT") ∧
      (¬(cp = Param.str "==" ∨ cp = Param.str "!=") → v.type = "NUMBER")) := by
  have hok := (parse_clause_ok t ct hp cl hcl).1 tm htm
  constructor
  · intro n ps he
    subst he
    exact hok
  · intro n cp ps v he hmem
    subst he
    obtain ⟨p0, p2, hps, hop0, hop2⟩ := hok
    subst hps
    have hv : v.type = compInferred cp := by
      rcases List.mem_cons.mp hmem with h0 | hmem2
      · rcases hop0 with ⟨s, hs⟩ | ⟨v2, hv2, hty⟩
        · rw [hs] at h0
          exact Param.noConfusion h0
        · rw [hv2] at h0
          have hvv : v = v2 := by injection h0
          rw [hvv]
          exact hty
      · have h0 : Param.var v = p2 := by
          rcases List.mem_cons.mp hmem2 with hx | hx
          · exact hx
          · exact absurd hx (List.not_mem_nil _)
        rcases hop2 with ⟨s, hs⟩ | ⟨v2, hv2, hty⟩
        · rw [hs] at h0
          exact Param.noConfusion h0
        · rw [hv2] at h0
          have hvv : v = v2 := by injection h0
          rw [hvv]
          exact hty
    constructor
    · intro hcp
      rw [hv]
      rcases hcp with h1 | h1 <;> rw [h1] <;> decide
    · intro hcp
      rw [hv]
      cases cp with
      | str s =>
        have hne : ¬(s = "==" ∨ s = "!=") := by
          intro hor
          refine hcp ?_
          rcases hor with hh | hh
          · exact Or.inl (by rw [hh])
          · exact Or.inr (by rw [hh])
        simp only [compInferred, if_neg hne]
      | jsUndefined => rfl
      | var v2 => rfl

/-- Witness for C1 at the concrete tree `treeT1`: the comparator there is
`>`, so the synthesized variable has type `NUMBER`. -/
theorem C1_message_content_types_witness :
    parse treeT1 = some contractT1 ∧ clauseT1 ∈ contractT1.clauses ∧
    termT1mc ∈ clauseT1.terms ∧ varAmount.type = "NUMBER" := by
  have h := C1_message_content_types treeT1 contractT1 clauseT1 termT1mc
    (by decide) (by decide) (by decide)
  refine ⟨by decide, by decide, by decide, ?_⟩
  exact (h.2 _ (Param.str ">") [Param.var varAmount, Param.str "100"] varAmount rfl
    (by decide)).2 (by decide)

/-! ## Claim C2 -/

/-- Claim C2: after lowering a clause from the initial state, the final term
index equals the number of timeout terms actually emitted plus the number of
message-content nodes encountered: a timeout child with non-numeric text
emits nothing and leaves the index unchanged, while every message-content
node advances the index exactly once, unconditionally. -/
theorem C2_term_index_accounting (cn : IdentifierName) (c : Node) (st2 : ClauseState)
    (h : optFold (clauseChildStep cn) initialClauseState c.children = some st2) :
    st2.termIndex = countTimeoutTerms st2.terms + countMCClauseChildren c.children := by
  have hd := optFold_delta (clauseChildStep_delta cn) c.children initialClauseState st2 h
  simp only [initialClauseState, countTimeoutTerms] at hd
  unfold countMCClauseChildren
  omega

/-- Witness for C2 at the concrete clause node `clauseNodeT1`: one
message-content node and one numeric timeout child give a final term index
of two. -/
theorem C2_term_index_accounting_witness :
    optFold (clauseChildStep cnT1) initialClauseState clauseNodeT1.children = some stT1 ∧
    stT1.termIndex = countTimeoutTerms stT1.terms + countMCClauseChildren clauseNodeT1.children :=
  ⟨by decide, C2_term_index_accounting cnT1 clauseNodeT1 stT1 (by decide)⟩

/-! ## Claim C3 -/

/-- Claim C3: each operand of a binary message-content comparison is handled
independently: numeric raw text passes through as the raw literal string and
synthesizes no variable; unquoted non-numeric text becomes a variable whose
base name is the raw text itself (pascal capitalizes the first character,
camel and snake keep it verbatim) with the comparator-inferred type; quoted
text becomes an anonymous variable named from the term index and the
positional suffix, with the comparator-inferred type. -/
theorem C3_operand_handling (term : Node) (i : Nat) (p0 p1 p2 : Param)
    (h : parseMessageContent term i = some [p0, p1, p2]) :
    (∀ v, term.children.get? 2 = some v →
      (jsStringToNumberDefined v.text = true → p0 = Param.str v.text) ∧
      (jsStringToNumberDefined v.text = false → startsWithQuote v.text = false →
        p0 = Param.var { name := { pascal := capitalizeFirst v.text
                                 , camel := v.text, snake := v.text }
                       , type := compInferred p1 }) ∧
      (jsStringToNumberDefined v.text = false → startsWithQuote v.text = true →
        p0 = Param.var { name := { pascal := "MessageContent" ++ toString i ++ toString 1
                                 , camel := "messageContent" ++ toString i ++ toString 1
                                 , snake := "messageContent_" ++ toString i ++ "_" ++ toString 1 }
                       , type := compInferred p1 })) ∧
    (∀ v, term.children.get? 4 = some v →
      (jsStringToNumberDefined v.text = true → p2 = Param.str v.text) ∧
      (jsStringToNumberDefined v.text = false → startsWithQuote v.text = false →
        p2 = Param.var { name := { pascal := capitalizeFirst v.text
                                 , camel := v.text, snake := v.text }
                       , type := compInferred p1 }) ∧
      (jsStringToNumberDefined v.text = false → startsWithQuote v.text = true →
        p2 = Param.var { name := { pascal := "MessageContent" ++ toString i ++ toString 2
                                 , camel := "messageContent" ++ toString i ++ toString 2
                                 , snake := "messageContent_" ++ toString i ++ "_" ++ toString 2 }
                       , type := compInferred p1 })) := by
  have h4 : term.children.length ≠ 4 := by
    intro h4
    unfold parseMessageContent at h
    rw [if_pos h4] at h
    have h5 := Option.some.inj h
    simp at h5
  obtain ⟨comp, hps⟩ := parseMessageContent_binary term i _ h h4
  have e0 : p0 = operandParam (term.children.get? 2) i 1 (inferType comp) := by
    injection hps with e0 rest
  have hrest : [p1, p2] = [comparatorParam comp,
      operandParam (term.children.get? 4) i 2 (inferType comp)] := by
    injection hps with _ rest
  have e1 : p1 = comparatorParam comp := by injection hrest with e1 _
  have e2 : p2 = operandParam (term.children.get? 4) i 2 (inferType comp) := by
    have hrest2 : [p2] = [operandParam (term.children.get? 4) i 2 (inferType comp)] := by
      injection hrest with _ r
    injection hrest2 with e2 _
  have hty : compInferred p1 = inferType comp := by
    rw [e1]
    exact compInferred_comparatorParam comp
  constructor
  · intro v hv
    rw [hv] at e0
    refine ⟨?_, ?_, ?_⟩
    · intro hnum
      rw [e0]
      simp [operandParam, hnum]
    · intro hnum hq
      rw [e0, hty]
      simp [operandParam, hnum, hq]
    · intro hnum hq
      rw [e0, hty]
      simp [operandParam, anonOperandVar, hnum, hq]
  · intro v hv
    rw [hv] at e2
    refine ⟨?_, ?_, ?_⟩
    · intro hnum
      rw [e2]
      simp [operandParam, hnum]
    · intro hnum hq
      rw [e2, hty]
      simp [operandParam, hnum, hq]
    · intro hnum hq
      rw [e2, hty]
      simp [operandParam, anonOperandVar, hnum, hq]

/-- Witness for C3 at the concrete node `MessageContent(amount > 100)` with
term index 0: the left operand becomes the variable `amount` of the inferred
numeric type, the right operand passes through as the literal `100`. -/
theorem C3_operand_handling_witness :
    parseMessageContent mcNodeAmount 0 =
      some [Param.var varAmount, Param.str ">", Param.str "100"] ∧
    Param.var varAmount =
      Param.var { name := { pascal := capitalizeFirst "amount", camel := "amount", snake := "amount" }, type := compInferred (Param.str ">") } ∧
    Param.str "100" = Param.str (tok "100").text := by
  have h := C3_operand_handling mcNodeAmount 0 (Param.var varAmount) (Param.str ">")
    (Param.str "100") (by decide)
  refine ⟨by decide, ?_, ?_⟩
  · exact (h.1 (tok "amount") rfl).2.1 (by decide) (by decide)
  · exact (h.2 (tok "100") rfl).1 (by decide)

/-! ## Claim C4 -/

/-- Claim C4 counterexample: at the concrete tree `treeT1` the binary
comparison `MessageContent(amount > 100)` produces a term whose operand
array holds one Variable and one raw literal string, so a binary
message-content term does not always contain exactly two Variables. -/
theorem C4_counterexample :
    parse treeT1 = some contractT1 ∧ clauseT1 ∈ contractT1.clauses ∧
    termT1mc ∈ clauseT1.terms ∧ termT1mc.isMc3 = true ∧
    (varsOfTerm termT1mc).length = 1 := by
  refine ⟨by decide, by decide, by decide, by decide, by decide⟩

/-- Claim C4 amended: a presence-check message-content term contains exactly
one entry, a Variable; a binary message-content term contains exactly two
operand entries, each either a Variable or a raw literal string, so the
number of Variables it contains is two minus the number of literal operands
(possibly 0, 1 or 2). -/
theorem C4_amended_term_arity (t : Node) (ct : Contract) (cl : Clause) (tm : Term)
    (hp : parse t = some ct) (hcl : cl ∈ ct.clauses) (htm : tm ∈ cl.terms) :
    (∀ n ps, tm = Term.mc1 n ps → ps.length = 1 ∧ (varsOfParams ps).length = 1) ∧
    (∀ n cp ps, tm = Term.mc3 n cp ps →
      ps.length = 2 ∧ (varsOfParams ps).length + countStrParams ps = 2) := by
  have hok := (parse_clause_ok t ct hp cl hcl).1 tm htm
  constructor
  · intro n ps he
    subst he
    obtain ⟨v, hps, _⟩ := hok
    subst hps
    exact ⟨rfl, rfl⟩
  · intro n cp ps he
    subst he
    obtain ⟨p0, p2, hps, hop0, hop2⟩ := hok
    subst hps
    refine ⟨rfl, ?_⟩
    rcases hop0 with ⟨s0, h0⟩ | ⟨v0, h0, _⟩ <;>
      rcases hop2 with ⟨s2, h2⟩ | ⟨v2, h2, _⟩ <;>
        subst h0 <;> subst h2 <;> rfl

/-- Witness for the amended C4 at `treeT1`: the binary term there has two
operand entries, one Variable and one literal. -/
theorem C4_amended_term_arity_witness :
    parse treeT1 = some contractT1 ∧ clauseT1 ∈ contractT1.clauses ∧
    termT1mc ∈ clauseT1.terms ∧
    ([Param.var varAmount, Param.str "100"].length = 2 ∧
     (varsOfParams [Param.var varAmount, Param.str "100"]).length +
       countStrParams [Param.var varAmount, Param.str "100"] = 2) := by
  refine ⟨by decide, by decide, by decide, ?_⟩
  exact (C4_amended_term_arity treeT1 contractT1 clauseT1 termT1mc
    (by decide) (by decide) (by decide)).2 _ (Param.str ">") _ rfl

/-! ## Claim C5 -/

/-- Claim C5: the variable list of every clause contains no two entries with
the same camel name, and equals the merge — keyed by camel name, in
first-discovery order, later occurrences overwriting earlier values — of the
variable entries discovered across all terms of the clause. -/
theorem C5_variables_dedup (t : Node) (ct : Contract) (cl : Clause)
    (hp : parse t = some ct) (hcl : cl ∈ ct.clauses) :
    (cl.vars.map (fun v => v.name.camel)).Nodup ∧
    cl.vars = (List.foldl mergeParam [] (paramsOfTerms cl.terms)).map Prod.snd := by
  obtain ⟨_, h2, h3, _⟩ := parse_clause_ok t ct hp cl hcl
  exact ⟨h3, h2⟩

/-- Witness for C5 at `treeT1`. -/
theorem C5_variables_dedup_witness :
    parse treeT1 = some contractT1 ∧ clauseT1 ∈ contractT1.clauses ∧
    ((clauseT1.vars.map (fun v => v.name.camel)).Nodup ∧
     clauseT1.vars = (List.foldl mergeParam [] (paramsOfTerms clauseT1.terms)).map Prod.snd) := by
  refine ⟨by decide, by decide, ?_⟩
  exact C5_variables_dedup treeT1 contractT1 clauseT1 (by decide) (by decide)

/-! ## Claim C6 -/

/-- Claim C6: canonicalization is deterministic and carries no state between
calls — structurally identical trees canonicalize to structurally identical
contracts — and identifier synthesis from the same base and suffix parts
always yields the identical pascal/camel/snake triple. -/
theorem C6_determinism (t1 t2 : Node) (cn1 cn2 : IdentifierName)
    (tt1 tt2 : String) (i1 i2 : Nat)
    (ht : t1 = t2) (hc : cn1 = cn2) (htt : tt1 = tt2) (hi : i1 = i2) :
    parse t1 = parse t2 ∧ mkTermName cn1 tt1 i1 = mkTermName cn2 tt2 i2 := by
  subst ht; subst hc; subst htt; subst hi
  exact ⟨rfl, rfl⟩

/-- Witness for C6 at `treeT1`. -/
theorem C6_determinism_witness :
    treeT1 = treeT1 ∧
    (parse treeT1 = parse treeT1 ∧ mkTermName cnT1 "timeout" 0 = mkTermName cnT1 "timeout" 0) :=
  ⟨rfl, C6_determinism treeT1 treeT1 cnT1 cnT1 "timeout" "timeout" 0 0 rfl rfl rfl rfl⟩

/-! ## Claim C7 -/

/-- Claim C7: in every clause of the returned contract the operation field
equals the role-player field, both being read from the identical syntactic
position of the clause node. -/
theorem C7_operation_eq_rolePlayer (t : Node) (ct : Contract) (cl : Clause)
    (hp : parse t = some ct) (hcl : cl ∈ ct.clauses) :
    cl.operation = cl.rolePlayer :=
  (parse_clause_ok t ct hp cl hcl).2.2.2

/-- Witness for C7 at `treeT1`. -/
theorem C7_operation_eq_rolePlayer_witness :
    parse treeT1 = some contractT1 ∧ clauseT1 ∈ contractT1.clauses ∧
    clauseT1.operation = clauseT1.rolePlayer :=
  ⟨by decide, by decide,
   C7_operation_eq_rolePlayer treeT1 contractT1 clauseT1 (by decide) (by decide)⟩

/-! ## Claim C8 -/

/-- Claim C8 counterexample: with the clause kind token written `PENALTY`,
local name `lateDelivery` and term `Timeout(86400)`, lowering emits exactly
one timeout term, but its pascal name is `PENALTYLateDeliveryTimeout0`:
capitalization preserves the characters after the first, so the claimed
`PenaltyLateDeliveryTimeout0` is not produced. -/
theorem C8_counterexample :
    (lowerClause clauseNodeC8).map Clause.terms =
      some [Term.timeout { pascal := "PENALTYLateDeliveryTimeout0"
                         , camel := "penaltyLateDeliveryTimeout0"
                         , snake := "PENALTY_lateDelivery_timeout_0" } "86400"] ∧
    "PENALTYLateDeliveryTimeout0" ≠ "PenaltyLateDeliveryTimeout0" := by
  exact ⟨by decide, by decide⟩

/-- Claim C8 amended: the `PENALTY lateDelivery` clause with `Timeout(86400)`
lowers to exactly one Timeout term with value "86400", whose pascal name is
`PENALTYLateDeliveryTimeout0` (camel `penaltyLateDeliveryTimeout0`, snake
`PENALTY_lateDelivery_timeout_0`). -/
theorem C8_amended_timeout_name :
    (lowerClause clauseNodeC8).map Clause.terms =
      some [Term.timeout { pascal := "PENALTYLateDeliveryTimeout0"
                         , camel := "penaltyLateDeliveryTimeout0"
                         , snake := "PENALTY_lateDelivery_timeout_0" } "86400"] := by
  decide

/-! ## Claim C9 -/

/-- Claim C9: a contract-level variables block is traversed without failing
and contributes nothing: the block handler always succeeds producing
nothing, and the variables field of every successfully canonicalized
contract is the empty sequence. -/
theorem C9_variables_block_inert (n : Node) (t : Node) (ct : Contract)
    (hp : parse t = some ct) :
    processVariablesBlock n = some () ∧ ct.vars = [] := by
  refine ⟨processVariablesBlock_eq n, ?_⟩
  unfold parse at hp
  cases hf : optFold topStep initialTopState t.children with
  | none => rw [hf] at hp; exact Option.noConfusion hp
  | some st =>
    rw [hf] at hp
    have h5 : some
        { name := ((findKind .idTok t.children).map Node.text).getD ""
        , beginDate := st.beginDate
        , dueDate := st.dueDate
        , application := st.application
        , process := st.process
        , vars := ([] : List Variable)
        , clauses := st.clauses } = some ct := hp
    obtain rfl := Option.some.inj h5
    rfl

/-- Witness for C9 at `treeT1` with a concrete variables block. -/
theorem C9_variables_block_inert_witness :
    parse treeT1 = some contractT1 ∧
    (processVariablesBlock varsBlockNode = some () ∧ contractT1.vars = []) :=
  ⟨by decide, C9_variables_block_inert varsBlockNode treeT1 contractT1 (by decide)⟩

/-! ## Claim C10 -/

/-- Claim C10: the timeout branch applies JavaScript Number coercion to each
child of the timeout node independently: it emits one Timeout term per child
whose raw text coerces to a non-NaN number, carrying the raw text as value,
with consecutive term indices; the empty string coerces to 0 and is
therefore emitted (with value "") rather than skipped. -/
theorem C10_timeout_numeric_children (cn : IdentifierName) (st : ClauseState) (cs : List Node) :
    runTimeouts cn st cs =
      { error := st.error
      , terms := st.terms ++ timeoutEmits cn st.termIndex cs
      , vars := st.vars
      , termIndex := st.termIndex + countNumericChildren cs } ∧
    jsStringToNumberDefined "" = true ∧
    timeoutEmits cn st.termIndex [tok ""] =
      [Term.timeout (mkTermName cn "timeout" st.termIndex) ""] := by
  refine ⟨runTimeouts_eq cn cs st, by decide, ?_⟩
  have hE : jsStringToNumberDefined "" = true := by decide
  simp [timeoutEmits, tok, Node.text, hE]

end JabutiCanonical
